import Mathlib

/-!
Verification of `import_mu/armature.py`: the coordinate conversion
(`Matrix_YZ`), the bone-hierarchy resolver (`find_bones`), the armature
builder's parent wiring and pose-matrix copy (`create_armature`), and the
recursive pose propagator (`process_armature`).  Real-number coordinates
are modelled exactly over `ℚ`.
-/

/-- 3-component vector (`mathutils.Vector` with three entries), over `ℚ`. -/
structure Vec3 where
  x : ℚ
  y : ℚ
  z : ℚ
deriving DecidableEq

def Vec3.add (a b : Vec3) : Vec3 := ⟨a.x + b.x, a.y + b.y, a.z + b.z⟩

def Vec3.sub (a b : Vec3) : Vec3 := ⟨a.x - b.x, a.y - b.y, a.z - b.z⟩

instance : Add Vec3 := ⟨Vec3.add⟩

instance : Sub Vec3 := ⟨Vec3.sub⟩

theorem Vec3.add_def (a b : Vec3) : a + b = Vec3.add a b := rfl

theorem Vec3.sub_def (a b : Vec3) : a - b = Vec3.sub a b := rfl

/-- Scalar multiple of a vector. -/
def smul3 (c : ℚ) (v : Vec3) : Vec3 := ⟨c * v.x, c * v.y, c * v.z⟩

/-- Squared euclidean length of a vector. -/
def normSq3 (v : Vec3) : ℚ := v.x * v.x + v.y * v.y + v.z * v.z

/-- Quaternion in `(w, x, y, z)` order, as `mathutils.Quaternion`. -/
structure Quat where
  w : ℚ
  x : ℚ
  y : ℚ
  z : ℚ
deriving DecidableEq

/-- Hamilton product (`Quaternion @ Quaternion` in mathutils). -/
def Quat.mul (a b : Quat) : Quat :=
  ⟨a.w * b.w - a.x * b.x - a.y * b.y - a.z * b.z,
   a.w * b.x + a.x * b.w + a.y * b.z - a.z * b.y,
   a.w * b.y - a.x * b.z + a.y * b.w + a.z * b.x,
   a.w * b.z + a.x * b.y - a.y * b.x + a.z * b.w⟩

def Quat.conj (q : Quat) : Quat := ⟨q.w, -q.x, -q.y, -q.z⟩

/-- The identity quaternion `Quaternion((1, 0, 0, 0))`. -/
def Quat.one : Quat := ⟨1, 0, 0, 0⟩

/-- Squared norm of a quaternion. -/
def normSqQ (q : Quat) : ℚ := q.w * q.w + q.x * q.x + q.y * q.y + q.z * q.z

/-- Rotation of a vector by a (unit) quaternion (`Quaternion @ Vector` in
mathutils): the vector part of `q * (0, v) * conj q`. -/
def Quat.rotate (q : Quat) (v : Vec3) : Vec3 :=
  let p := Quat.mul (Quat.mul q ⟨0, v.x, v.y, v.z⟩) (Quat.conj q)
  ⟨p.x, p.y, p.z⟩

/-- Row of a 4x4 matrix. -/
structure Vec4 where
  x : ℚ
  y : ℚ
  z : ℚ
  w : ℚ
deriving DecidableEq

/-- 4x4 matrix given by rows, as `mathutils.Matrix((row0, row1, row2, row3))`. -/
structure Mat4 where
  r0 : Vec4
  r1 : Vec4
  r2 : Vec4
  r3 : Vec4
deriving DecidableEq

def dot4 (a b : Vec4) : ℚ := a.x * b.x + a.y * b.y + a.z * b.z + a.w * b.w

def Mat4.col0 (m : Mat4) : Vec4 := ⟨m.r0.x, m.r1.x, m.r2.x, m.r3.x⟩

def Mat4.col1 (m : Mat4) : Vec4 := ⟨m.r0.y, m.r1.y, m.r2.y, m.r3.y⟩

def Mat4.col2 (m : Mat4) : Vec4 := ⟨m.r0.z, m.r1.z, m.r2.z, m.r3.z⟩

def Mat4.col3 (m : Mat4) : Vec4 := ⟨m.r0.w, m.r1.w, m.r2.w, m.r3.w⟩

/-- Row-by-column matrix product (`Matrix @ Matrix` in mathutils). -/
def Mat4.mul (a b : Mat4) : Mat4 :=
  ⟨⟨dot4 a.r0 b.col0, dot4 a.r0 b.col1, dot4 a.r0 b.col2, dot4 a.r0 b.col3⟩,
   ⟨dot4 a.r1 b.col0, dot4 a.r1 b.col1, dot4 a.r1 b.col2, dot4 a.r1 b.col3⟩,
   ⟨dot4 a.r2 b.col0, dot4 a.r2 b.col1, dot4 a.r2 b.col2, dot4 a.r2 b.col3⟩,
   ⟨dot4 a.r3 b.col0, dot4 a.r3 b.col1, dot4 a.r3 b.col2, dot4 a.r3 b.col3⟩⟩

/-- Matrix applied to a column vector. -/
def Mat4.mulVec (m : Mat4) (v : Vec4) : Vec4 :=
  ⟨dot4 m.r0 v, dot4 m.r1 v, dot4 m.r2 v, dot4 m.r3 v⟩

def Mat4.identity : Mat4 :=
  ⟨⟨1, 0, 0, 0⟩, ⟨0, 1, 0, 0⟩, ⟨0, 0, 1, 0⟩, ⟨0, 0, 0, 1⟩⟩

/-- `BONE_LENGTH = 0.1` (armature.py line 26). -/
def BONE_LENGTH : ℚ := 1 / 10

/-- The fixed basis-change matrix for LHS/RHS conversion
(armature.py lines 28-31). -/
def Matrix_YZ : Mat4 :=
  ⟨⟨1, 0, 0, 0⟩, ⟨0, 0, 1, 0⟩, ⟨0, 1, 0, 0⟩, ⟨0, 0, 0, 1⟩⟩

/-- Conversion of a 4x4 matrix between coordinate conventions, as used on
bind-pose matrices at armature.py line 106: `Matrix_YZ @ bp @ Matrix_YZ`
(the `@` operator is left-associative). -/
def convert (m : Mat4) : Mat4 := (Matrix_YZ.mul m).mul Matrix_YZ

theorem Matrix_YZ_self_mul : Matrix_YZ.mul Matrix_YZ = Mat4.identity := by
  with_unfolding_all rfl

theorem convert_involution (m : Mat4) : convert (convert m) = m := by
  obtain ⟨⟨a, b, c, d⟩, ⟨e, f, g, h⟩, ⟨i, j, k, l⟩, ⟨p, q, r, s⟩⟩ := m
  simp only [convert, Mat4.mul, Matrix_YZ, dot4, Mat4.col0, Mat4.col1,
    Mat4.col2, Mat4.col3, Mat4.mk.injEq, Vec4.mk.injEq]
  norm_num

theorem Matrix_YZ_vec_involution (v : Vec4) :
    Matrix_YZ.mulVec (Matrix_YZ.mulVec v) = v := by
  obtain ⟨a, b, c, d⟩ := v
  simp only [Mat4.mulVec, Matrix_YZ, dot4, Vec4.mk.injEq]
  norm_num

theorem normSqQ_mul (a b : Quat) :
    normSqQ (Quat.mul a b) = normSqQ a * normSqQ b := by
  obtain ⟨aw, ax, ay, az⟩ := a
  obtain ⟨bw, bx, by', bz⟩ := b
  simp only [Quat.mul, normSqQ]
  ring

theorem normSq3_rotate (q : Quat) (v : Vec3) :
    normSq3 (q.rotate v) = normSqQ q ^ 2 * normSq3 v := by
  obtain ⟨qw, qx, qy, qz⟩ := q
  obtain ⟨vx, vy, vz⟩ := v
  simp only [Quat.rotate, Quat.mul, Quat.conj, normSq3, normSqQ]
  ring

theorem rotate_smul (q : Quat) (c : ℚ) (v : Vec3) :
    q.rotate (smul3 c v) = smul3 c (q.rotate v) := by
  obtain ⟨qw, qx, qy, qz⟩ := q
  obtain ⟨vx, vy, vz⟩ := v
  simp only [Quat.rotate, Quat.mul, Quat.conj, smul3, Vec3.mk.injEq]
  refine ⟨by ring, by ring, by ring⟩

theorem vec3_add_sub_cancel (a b : Vec3) : a + b - a = b := by
  obtain ⟨ax, ay, az⟩ := a
  obtain ⟨bx, by', bz⟩ := b
  simp only [Vec3.add_def, Vec3.sub_def, Vec3.add, Vec3.sub, Vec3.mk.injEq]
  refine ⟨by ring, by ring, by ring⟩

/-!
Scene-graph model.  `mu.objects` is a dictionary from transform name to
object; an object's `.parent` is a reference to another object or `None`
for scene roots.  Names are the dictionary keys, hence unique, so objects
are modelled by their names and the graph by a name-to-parent table.
-/

/-- The scene graph: `mu.objects` as a table mapping each object's name to
its parent's name (`none` for a scene root whose `.parent` is `None`). -/
structure Mu where
  objects : List (String × Option String)
deriving DecidableEq

/-- `b.parent` for the object named `b` (`none` when the object is a scene
root; also `none` when `b` is not in the table, which does not arise for
names obtained from the table itself). -/
def parentOf (mu : Mu) (b : String) : Option String :=
  match List.lookup b mu.objects with
  | some p => p
  | none => none

/-- A skin: `skin.skinned_mesh_renderer.bones` (bone names, in order) and
`skin.skinned_mesh_renderer.mesh.bindPoses` (one 4x4 matrix per bone,
already assembled row-major as at armature.py line 105). -/
structure Skin where
  bones : List String
  bindPoses : List Mat4
deriving DecidableEq

/-- Failure modes of the armature build.  `lookupError` models the Python
`KeyError` (a subclass of `LookupError`) from `mu.objects[bname]`;
`indexError` the `IndexError` from `bindPoses[i]`; `attributeError` the
`AttributeError` raised when the parent walk passes a scene root (line 118
sets `b = b.parent = None`, and the next iteration evaluates
`None.parent`).  `structuralError` is modelled from the spec (section 7b):
the code itself never raises it, the constructor only makes the spec's
claimed behaviour statable.  `outOfFuel` models non-termination of a loop
in the fuel-limited embedding. -/
inductive MuError where
  | lookupError (name : String)
  | indexError
  | attributeError
  | structuralError (msg : String)
  | outOfFuel
deriving DecidableEq

/-- `true` exactly on results that are a `structuralError`. -/
def isStructuralError {α : Type} : Except MuError α → Bool
  | .error (.structuralError _) => true
  | _ => false

/-- The inner walk of `find_bones` (lines 116-119): starting from `b`
(already added by line 116), walk up through parents until the current
node is a sibling boundary, collecting every visited node.  A walk that
passes a scene root fails with `attributeError` (see `MuError`). -/
def walkUp (mu : Mu) (siblings : List String) : Nat → String → Except MuError (List String)
  | 0, _ => .error .outOfFuel
  | fuel + 1, b =>
    if b ∈ siblings then .ok [b]
    else
      match parentOf mu b with
      | none => .error .attributeError
      | some p =>
        match walkUp mu siblings fuel p with
        | .ok l => .ok (b :: l)
        | .error e => .error e

/-- One overwrite of the per-bone `bindPose` attribute (line 106): replace
the entry if the bone already has one, otherwise add it. -/
def record_step : List (String × Mat4) → String → Mat4 → List (String × Mat4)
  | [], n, m => [(n, m)]
  | (k, v) :: rest, n, m =>
    if k = n then (k, m) :: rest else (k, v) :: record_step rest n m

/-- Lines 102-106 of `find_bones`: for each `(i, bname)` in order, look the
bone up (`KeyError` when absent), fetch `bindPoses[i]` (`IndexError` when
exhausted), and store `bone.bindPose = Matrix_YZ @ bp @ Matrix_YZ`. -/
def record_bindPoses (mu : Mu) :
    List String → List Mat4 → List (String × Mat4) → Except MuError (List (String × Mat4))
  | [], _, acc => .ok acc
  | bname :: rest, bps, acc =>
    match List.lookup bname mu.objects with
    | none => .error (.lookupError bname)
    | some _ =>
      match bps with
      | [] => .error .indexError
      | bp :: bps' => record_bindPoses mu rest bps' (record_step acc bname (convert bp))

/-- `set.add`: append the element when not already present. -/
def addS (l : List String) (x : String) : List String :=
  if x ∈ l then l else l ++ [x]

/-- Add every element of `l` to the set `acc`. -/
def unionL (acc l : List String) : List String :=
  l.foldl addS acc

/-- `set(names)`: deduplicate, keeping first occurrences. -/
def dedupL (l : List String) : List String := unionL [] l

/-- The body of the fix-point loop (lines 114-119): for each bone in the
previous set, add it and every node its upward walk visits. -/
def step_walk (mu : Mu) (siblings : List String) (wf : Nat) :
    List String → List String → Except MuError (List String)
  | [], acc => .ok acc
  | b :: rest, acc =>
    match walkUp mu siblings wf b with
    | .ok l => step_walk mu siblings wf rest (unionL acc l)
    | .error e => .error e

/-- The fix-point loop of `find_bones` (lines 111-119):
`while bones - prev_bones: prev_bones = bones; bones = step(prev_bones)`. -/
def fb_loop (mu : Mu) (siblings : List String) (wf : Nat) :
    Nat → List String → List String → Except MuError (List String)
  | 0, _, _ => .error .outOfFuel
  | n + 1, prev, bones =>
    if bones.all (fun b => decide (b ∈ prev)) then .ok bones
    else
      match step_walk mu siblings wf bones [] with
      | .ok bones' => fb_loop mu siblings wf n bones bones'
      | .error e => .error e

/-- `find_bones` (lines 100-122): record converted bind poses on the
skin's bones, seed the bone set with the skin's bone names, close it under
the sibling-bounded ancestor walk, and return the recorded bind-pose table
together with the bone set.  `wf` and `lf` are fuel for the inner walk and
the outer loop (the Python loops carry no fuel; `outOfFuel` stands for
divergence). -/
def find_bones (mu : Mu) (skin : Skin) (siblings : List String) (wf lf : Nat) :
    Except MuError (List (String × Mat4) × List String) :=
  match record_bindPoses mu skin.bones skin.bindPoses [] with
  | .error e => .error e
  | .ok bindmap =>
    match fb_loop mu siblings wf lf [] (dedupL skin.bones) with
    | .ok bones => .ok (bindmap, bones)
    | .error e => .error e

/-- The bone-collection prefix of `create_armature` (lines 128-130):
`for skin in skins: bones.update(find_bones(mu, skin, siblings))`.
Any failure of `find_bones` aborts the build and surfaces to the caller. -/
def collect_bones (mu : Mu) (siblings : List String) (wf lf : Nat) :
    List Skin → List String → Except MuError (List String)
  | [], acc => .ok acc
  | skin :: rest, acc =>
    match find_bones mu skin siblings wf lf with
    | .ok r => collect_bones mu siblings wf lf rest (unionL acc r.2)
    | .error e => .error e

/-- Line 167's test `b.parent in bones`, as the generated edit-bone's
parent name: the source parent when it is in the bone set, otherwise
`none` (Python's `None` is never in `bones`, so a scene root also gets
`none`). -/
def bone_parent (mu : Mu) (bones : List String) (b : String) : Option String :=
  match parentOf mu b with
  | some p => if p ∈ bones then some p else none
  | none => none

/-- Lines 166-170 of `create_armature`: for every bone, wire its edit-bone
parent link, and collect as hierarchy roots the bones whose source parent
is not in the bone set. -/
def create_armature_parenting (mu : Mu) (bones : List String) :
    List (String × Option String) × List String :=
  (bones.map (fun b => (b, bone_parent mu bones b)),
   bones.filter (fun b => (bone_parent mu bones b).isNone))


theorem walkUp_eq_sib {mu : Mu} {siblings : List String} {n : Nat} {b : String}
    (h : b ∈ siblings) : walkUp mu siblings (n + 1) b = .ok [b] := by
  simp [walkUp, h]

theorem walkUp_eq_noparent {mu : Mu} {siblings : List String} {n : Nat} {b : String}
    (h1 : b ∉ siblings) (h2 : parentOf mu b = none) :
    walkUp mu siblings (n + 1) b = .error .attributeError := by
  simp [walkUp, h1, h2]

theorem walkUp_eq_step_ok {mu : Mu} {siblings : List String} {n : Nat} {b p : String}
    {l : List String} (h1 : b ∉ siblings) (h2 : parentOf mu b = some p)
    (h3 : walkUp mu siblings n p = .ok l) :
    walkUp mu siblings (n + 1) b = .ok (b :: l) := by
  simp [walkUp, h1, h2, h3]

theorem walkUp_eq_step_err {mu : Mu} {siblings : List String} {n : Nat} {b p : String}
    {e : MuError} (h1 : b ∉ siblings) (h2 : parentOf mu b = some p)
    (h3 : walkUp mu siblings n p = .error e) :
    walkUp mu siblings (n + 1) b = .error e := by
  simp [walkUp, h1, h2, h3]

theorem walkUp_head {mu : Mu} {siblings : List String} :
    ∀ {n : Nat} {b : String} {l : List String},
    walkUp mu siblings n b = .ok l → ∃ l', l = b :: l' := by
  intro n b l h
  cases n with
  | zero => simp [walkUp] at h
  | succ m =>
    by_cases hsib : b ∈ siblings
    · rw [walkUp_eq_sib hsib] at h
      exact ⟨[], by simpa using h.symm⟩
    · cases hp : parentOf mu b with
      | none => rw [walkUp_eq_noparent hsib hp] at h; simp at h
      | some p =>
        cases hl2 : walkUp mu siblings m p with
        | ok l2 =>
          rw [walkUp_eq_step_ok hsib hp hl2] at h
          exact ⟨l2, by simpa using h.symm⟩
        | error e => rw [walkUp_eq_step_err hsib hp hl2] at h; simp at h

theorem walkUp_mono {mu : Mu} {siblings : List String} :
    ∀ {n m : Nat} {b : String} {l : List String},
    walkUp mu siblings n b = .ok l → n ≤ m → walkUp mu siblings m b = .ok l := by
  intro n
  induction n with
  | zero => intro m b l h _; simp [walkUp] at h
  | succ k ih =>
    intro m b l h hle
    cases m with
    | zero => omega
    | succ m' =>
      by_cases hsib : b ∈ siblings
      · rw [walkUp_eq_sib hsib] at h
        rw [walkUp_eq_sib hsib]
        exact h
      · cases hp : parentOf mu b with
        | none => rw [walkUp_eq_noparent hsib hp] at h; simp at h
        | some p =>
          cases hl2 : walkUp mu siblings k p with
          | ok l2 =>
            rw [walkUp_eq_step_ok hsib hp hl2] at h
            rw [walkUp_eq_step_ok hsib hp (ih hl2 (by omega))]
            exact h
          | error e => rw [walkUp_eq_step_err hsib hp hl2] at h; simp at h

theorem walkUp_suffix {mu : Mu} {siblings : List String} :
    ∀ {n : Nat} {b : String} {l : List String},
    walkUp mu siblings n b = .ok l →
    ∀ x ∈ l, ∃ lx, walkUp mu siblings n x = .ok lx ∧ ∀ y ∈ lx, y ∈ l := by
  intro n
  induction n with
  | zero => intro b l h; simp [walkUp] at h
  | succ k ih =>
    intro b l h x hx
    have hcopy := h
    by_cases hsib : b ∈ siblings
    · rw [walkUp_eq_sib hsib] at h
      have hl : l = [b] := by simpa using h.symm
      subst hl
      have hxb : x = b := by simpa using hx
      subst hxb
      exact ⟨[x], hcopy, by simp⟩
    · cases hp : parentOf mu b with
      | none => rw [walkUp_eq_noparent hsib hp] at h; simp at h
      | some p =>
        cases hl2 : walkUp mu siblings k p with
        | ok l2 =>
          rw [walkUp_eq_step_ok hsib hp hl2] at h
          have hl : l = b :: l2 := by simpa using h.symm
          subst hl
          rcases List.mem_cons.mp hx with hxb | hx2
          · subst hxb
            exact ⟨x :: l2, hcopy, fun y hy => hy⟩
          · obtain ⟨lx, hlx, hsub⟩ := ih hl2 x hx2
            exact ⟨lx, walkUp_mono hlx (by omega),
              fun y hy => List.mem_cons_of_mem _ (hsub y hy)⟩
        | error e => rw [walkUp_eq_step_err hsib hp hl2] at h; simp at h

theorem walkUp_boundary {mu : Mu} {siblings : List String} :
    ∀ {n : Nat} {b : String} {l : List String},
    walkUp mu siblings n b = .ok l →
    ∃ l₁ s, l = l₁ ++ [s] ∧ s ∈ siblings ∧ ∀ x ∈ l₁, x ∉ siblings := by
  intro n
  induction n with
  | zero => intro b l h; simp [walkUp] at h
  | succ k ih =>
    intro b l h
    by_cases hsib : b ∈ siblings
    · rw [walkUp_eq_sib hsib] at h
      have hl : l = [b] := by simpa using h.symm
      subst hl
      exact ⟨[], b, by simp, hsib, by simp⟩
    · cases hp : parentOf mu b with
      | none => rw [walkUp_eq_noparent hsib hp] at h; simp at h
      | some p =>
        cases hl2 : walkUp mu siblings k p with
        | ok l2 =>
          rw [walkUp_eq_step_ok hsib hp hl2] at h
          have hl : l = b :: l2 := by simpa using h.symm
          subst hl
          obtain ⟨l₁, s, rfl, hs, hl₁⟩ := ih hl2
          refine ⟨b :: l₁, s, by simp, hs, ?_⟩
          intro x hx
          rcases List.mem_cons.mp hx with rfl | hx1
          · exact hsib
          · exact hl₁ x hx1
        | error e => rw [walkUp_eq_step_err hsib hp hl2] at h; simp at h

theorem walkUp_parent {mu : Mu} {siblings : List String} {n : Nat} {b : String}
    {l : List String} (h : walkUp mu siblings n b = .ok l) (hb : b ∉ siblings) :
    ∃ p l', parentOf mu b = some p ∧ l = b :: l' ∧ p ∈ l' := by
  cases n with
  | zero => simp [walkUp] at h
  | succ k =>
    cases hp : parentOf mu b with
    | none => rw [walkUp_eq_noparent hb hp] at h; simp at h
    | some p =>
      cases hl2 : walkUp mu siblings k p with
      | ok l2 =>
        rw [walkUp_eq_step_ok hb hp hl2] at h
        have hl : l = b :: l2 := by simpa using h.symm
        obtain ⟨l2', rfl⟩ := walkUp_head hl2
        exact ⟨p, p :: l2', rfl, hl, List.mem_cons_self p l2'⟩
      | error e => rw [walkUp_eq_step_err hb hp hl2] at h; simp at h

theorem mem_addS {l : List String} {x y : String} :
    y ∈ addS l x ↔ y ∈ l ∨ y = x := by
  unfold addS
  split
  · rename_i hx
    constructor
    · exact Or.inl
    · rintro (hy | rfl)
      · exact hy
      · exact hx
  · simp

theorem mem_unionL {l : List String} :
    ∀ {acc : List String} {y : String}, y ∈ unionL acc l ↔ y ∈ acc ∨ y ∈ l := by
  induction l with
  | nil => intro acc y; simp [unionL]
  | cons a l ih =>
    intro acc y
    show y ∈ unionL (addS acc a) l ↔ _
    rw [ih, mem_addS]
    simp only [List.mem_cons]
    tauto

theorem nodup_addS {l : List String} {x : String} (h : l.Nodup) :
    (addS l x).Nodup := by
  unfold addS
  split
  · exact h
  · rename_i hx
    simp [List.nodup_append, h, hx]

theorem nodup_unionL {l : List String} :
    ∀ {acc : List String}, acc.Nodup → (unionL acc l).Nodup := by
  induction l with
  | nil => intro acc h; exact h
  | cons a l ih =>
    intro acc h
    exact ih (nodup_addS h)

theorem mem_dedupL {l : List String} {y : String} : y ∈ dedupL l ↔ y ∈ l := by
  unfold dedupL
  rw [mem_unionL]
  simp

theorem nodup_dedupL {l : List String} : (dedupL l).Nodup :=
  nodup_unionL List.nodup_nil

theorem step_walk_eq_ok {mu : Mu} {siblings : List String} {wf : Nat} {b : String}
    {rest acc l : List String} (h : walkUp mu siblings wf b = .ok l) :
    step_walk mu siblings wf (b :: rest) acc = step_walk mu siblings wf rest (unionL acc l) := by
  simp [step_walk, h]

theorem step_walk_eq_err {mu : Mu} {siblings : List String} {wf : Nat} {b : String}
    {rest acc : List String} {e : MuError} (h : walkUp mu siblings wf b = .error e) :
    step_walk mu siblings wf (b :: rest) acc = .error e := by
  simp [step_walk, h]

theorem step_walk_acc_sub {mu : Mu} {siblings : List String} {wf : Nat} :
    ∀ {todo acc out : List String}, step_walk mu siblings wf todo acc = .ok out →
    ∀ x ∈ acc, x ∈ out := by
  intro todo
  induction todo with
  | nil =>
    intro acc out h x hx
    obtain rfl : acc = out := by simpa [step_walk] using h
    exact hx
  | cons a rest ih =>
    intro acc out h x hx
    cases hw : walkUp mu siblings wf a with
    | ok la =>
      rw [step_walk_eq_ok hw] at h
      exact ih h x (mem_unionL.mpr (Or.inl hx))
    | error e => rw [step_walk_eq_err hw] at h; simp at h

theorem step_walk_chains {mu : Mu} {siblings : List String} {wf : Nat} :
    ∀ {todo acc out : List String}, step_walk mu siblings wf todo acc = .ok out →
    ∀ b ∈ todo, ∃ l, walkUp mu siblings wf b = .ok l ∧ ∀ x ∈ l, x ∈ out := by
  intro todo
  induction todo with
  | nil => intro acc out h b hb; simp at hb
  | cons a rest ih =>
    intro acc out h b hb
    cases hw : walkUp mu siblings wf a with
    | ok la =>
      rw [step_walk_eq_ok hw] at h
      rcases List.mem_cons.mp hb with rfl | hb2
      · exact ⟨la, hw, fun x hx =>
          step_walk_acc_sub h x (mem_unionL.mpr (Or.inr hx))⟩
      · exact ih h b hb2
    | error e => rw [step_walk_eq_err hw] at h; simp at h

theorem step_walk_todo_sub {mu : Mu} {siblings : List String} {wf : Nat}
    {todo acc out : List String} (h : step_walk mu siblings wf todo acc = .ok out) :
    ∀ b ∈ todo, b ∈ out := by
  intro b hb
  obtain ⟨l, hw, hsub⟩ := step_walk_chains h b hb
  obtain ⟨l', rfl⟩ := walkUp_head hw
  exact hsub b (List.mem_cons_self b l')

theorem step_walk_origin {mu : Mu} {siblings : List String} {wf : Nat} :
    ∀ {todo acc out : List String}, step_walk mu siblings wf todo acc = .ok out →
    ∀ x ∈ out, x ∈ acc ∨ ∃ b ∈ todo, ∃ l, walkUp mu siblings wf b = .ok l ∧ x ∈ l := by
  intro todo
  induction todo with
  | nil =>
    intro acc out h x hx
    obtain rfl : acc = out := by simpa [step_walk] using h
    exact Or.inl hx
  | cons a rest ih =>
    intro acc out h x hx
    cases hw : walkUp mu siblings wf a with
    | ok la =>
      rw [step_walk_eq_ok hw] at h
      rcases ih h x hx with hacc | ⟨b, hb, l, hwb, hxl⟩
      · rcases mem_unionL.mp hacc with hx1 | hx2
        · exact Or.inl hx1
        · exact Or.inr ⟨a, List.mem_cons_self a rest, la, hw, hx2⟩
      · exact Or.inr ⟨b, List.mem_cons_of_mem a hb, l, hwb, hxl⟩
    | error e => rw [step_walk_eq_err hw] at h; simp at h

theorem step_walk_nodup {mu : Mu} {siblings : List String} {wf : Nat} :
    ∀ {todo acc out : List String}, acc.Nodup →
    step_walk mu siblings wf todo acc = .ok out → out.Nodup := by
  intro todo
  induction todo with
  | nil =>
    intro acc out hn h
    obtain rfl : acc = out := by simpa [step_walk] using h
    exact hn
  | cons a rest ih =>
    intro acc out hn h
    cases hw : walkUp mu siblings wf a with
    | ok la =>
      rw [step_walk_eq_ok hw] at h
      exact ih (nodup_unionL hn) h
    | error e => rw [step_walk_eq_err hw] at h; simp at h

theorem step_walk_ok {mu : Mu} {siblings : List String} {wf : Nat} :
    ∀ {todo : List String}, (∀ b ∈ todo, ∃ l, walkUp mu siblings wf b = .ok l) →
    ∀ acc, ∃ out, step_walk mu siblings wf todo acc = .ok out := by
  intro todo
  induction todo with
  | nil => intro _ acc; exact ⟨acc, by simp [step_walk]⟩
  | cons a rest ih =>
    intro hall acc
    obtain ⟨la, hla⟩ := hall a (List.mem_cons_self a rest)
    obtain ⟨out, hout⟩ := ih (fun b hb => hall b (List.mem_cons_of_mem a hb)) (unionL acc la)
    exact ⟨out, by rw [step_walk_eq_ok hla]; exact hout⟩

theorem step_walk_error {mu : Mu} {siblings : List String} {wf : Nat} :
    ∀ {todo : List String},
    (∀ b ∈ todo, walkUp mu siblings wf b = .error .attributeError ∨
      ∃ l, walkUp mu siblings wf b = .ok l) →
    (∃ b ∈ todo, walkUp mu siblings wf b = .error .attributeError) →
    ∀ acc, step_walk mu siblings wf todo acc = .error .attributeError := by
  intro todo
  induction todo with
  | nil => intro _ hex acc; simp at hex
  | cons a rest ih =>
    intro hall hex acc
    rcases hall a (List.mem_cons_self a rest) with herr | ⟨la, hok⟩
    · rw [step_walk_eq_err herr]
    · rw [step_walk_eq_ok hok]
      obtain ⟨b, hb, hberr⟩ := hex
      rcases List.mem_cons.mp hb with rfl | hb2
      · rw [hok] at hberr; simp at hberr
      · exact ih (fun c hc => hall c (List.mem_cons_of_mem a hc)) ⟨b, hb2, hberr⟩ _

theorem all_mem_iff {bones prev : List String} :
    bones.all (fun b => decide (b ∈ prev)) = true ↔ ∀ x ∈ bones, x ∈ prev := by
  simp [List.all_eq_true]

theorem fb_loop_eq_done {mu : Mu} {siblings : List String} {wf n : Nat}
    {prev bones : List String} (h : ∀ x ∈ bones, x ∈ prev) :
    fb_loop mu siblings wf (n + 1) prev bones = .ok bones := by
  simp [fb_loop, all_mem_iff.mpr h]

theorem fb_loop_eq_step {mu : Mu} {siblings : List String} {wf n : Nat}
    {prev bones bones' : List String} (h : ¬ ∀ x ∈ bones, x ∈ prev)
    (hs : step_walk mu siblings wf bones [] = .ok bones') :
    fb_loop mu siblings wf (n + 1) prev bones = fb_loop mu siblings wf n bones bones' := by
  have : bones.all (fun b => decide (b ∈ prev)) = false := by
    rcases Bool.eq_false_or_eq_true (bones.all (fun b => decide (b ∈ prev))) with ht | hf
    · exact absurd (all_mem_iff.mp ht) h
    · exact hf
  simp [fb_loop, this, hs]

theorem fb_loop_eq_err {mu : Mu} {siblings : List String} {wf n : Nat}
    {prev bones : List String} {e : MuError} (h : ¬ ∀ x ∈ bones, x ∈ prev)
    (hs : step_walk mu siblings wf bones [] = .error e) :
    fb_loop mu siblings wf (n + 1) prev bones = .error e := by
  have : bones.all (fun b => decide (b ∈ prev)) = false := by
    rcases Bool.eq_false_or_eq_true (bones.all (fun b => decide (b ∈ prev))) with ht | hf
    · exact absurd (all_mem_iff.mp ht) h
    · exact hf
  simp [fb_loop, this, hs]

theorem fb_loop_sub {mu : Mu} {siblings : List String} {wf : Nat} :
    ∀ {n : Nat} {prev bones out : List String},
    fb_loop mu siblings wf n prev bones = .ok out → ∀ x ∈ bones, x ∈ out := by
  intro n
  induction n with
  | zero => intro prev bones out h; simp [fb_loop] at h
  | succ k ih =>
    intro prev bones out h x hx
    by_cases hc : ∀ x ∈ bones, x ∈ prev
    · rw [fb_loop_eq_done hc] at h
      obtain rfl : bones = out := by simpa using h
      exact hx
    · cases hs : step_walk mu siblings wf bones [] with
      | ok bones' =>
        rw [fb_loop_eq_step hc hs] at h
        exact ih h x (step_walk_todo_sub hs x hx)
      | error e => rw [fb_loop_eq_err hc hs] at h; simp at h

theorem fb_loop_spec {mu : Mu} {siblings : List String} {wf : Nat} :
    ∀ {n : Nat} {prev bones out : List String},
    fb_loop mu siblings wf n prev bones = .ok out →
    (out = bones ∧ ∀ x ∈ bones, x ∈ prev) ∨
      ∃ S, step_walk mu siblings wf S [] = .ok out ∧ ∀ x ∈ out, x ∈ S := by
  intro n
  induction n with
  | zero => intro prev bones out h; simp [fb_loop] at h
  | succ k ih =>
    intro prev bones out h
    by_cases hc : ∀ x ∈ bones, x ∈ prev
    · rw [fb_loop_eq_done hc] at h
      obtain rfl : bones = out := by simpa using h
      exact Or.inl ⟨rfl, hc⟩
    · cases hs : step_walk mu siblings wf bones [] with
      | ok bones' =>
        rw [fb_loop_eq_step hc hs] at h
        rcases ih h with ⟨rfl, hsub⟩ | hrec
        · exact Or.inr ⟨bones, hs, hsub⟩
        · exact Or.inr hrec
      | error e => rw [fb_loop_eq_err hc hs] at h; simp at h

theorem fb_loop_nodup {mu : Mu} {siblings : List String} {wf n : Nat}
    {prev bones out : List String} (hn : bones.Nodup)
    (h : fb_loop mu siblings wf n prev bones = .ok out) : out.Nodup := by
  rcases fb_loop_spec h with ⟨rfl, _⟩ | ⟨S, hs, _⟩
  · exact hn
  · exact step_walk_nodup List.nodup_nil hs

theorem find_bones_ok_parts {mu : Mu} {skin : Skin} {siblings : List String}
    {wf lf : Nat} {r : List (String × Mat4) × List String}
    (h : find_bones mu skin siblings wf lf = .ok r) :
    record_bindPoses mu skin.bones skin.bindPoses [] = .ok r.1 ∧
      fb_loop mu siblings wf lf [] (dedupL skin.bones) = .ok r.2 := by
  unfold find_bones at h
  cases hr : record_bindPoses mu skin.bones skin.bindPoses [] with
  | ok bindmap =>
    rw [hr] at h
    cases hf : fb_loop mu siblings wf lf [] (dedupL skin.bones) with
    | ok bones =>
      rw [hf] at h
      have : (bindmap, bones) = r := by simpa using h
      subst this
      exact ⟨rfl, rfl⟩
    | error e => rw [hf] at h; simp at h
  | error e => rw [hr] at h; simp at h

theorem lookup_record_step_self :
    ∀ {l : List (String × Mat4)} {n : String} {m : Mat4},
    List.lookup n (record_step l n m) = some m := by
  intro l
  induction l with
  | nil => intro n m; simp [record_step, List.lookup]
  | cons kv rest ih =>
    intro n m
    obtain ⟨k, v⟩ := kv
    by_cases hk : k = n
    · subst hk
      simp [record_step, List.lookup]
    · simp only [record_step, if_neg hk]
      have : (n == k) = false := by
        simpa using fun h => hk h.symm
      simp [List.lookup, this, ih]

theorem lookup_record_step_other {k : String} :
    ∀ {l : List (String × Mat4)} {n : String} {m : Mat4}, k ≠ n →
    List.lookup k (record_step l n m) = List.lookup k l := by
  intro l
  induction l with
  | nil =>
    intro n m hne
    have : (k == n) = false := by simpa using hne
    simp [record_step, List.lookup, this]
  | cons kv rest ih =>
    intro n m hne
    obtain ⟨k', v⟩ := kv
    by_cases hk : k' = n
    · subst hk
      have : (k == k') = false := by simpa using hne
      simp [record_step, List.lookup, this]
    · simp only [record_step, if_neg hk]
      by_cases hkk : k = k'
      · subst hkk
        simp [List.lookup]
      · have : (k == k') = false := by simpa using hkk
        simp [List.lookup, this, ih hne]

theorem record_eq_miss {mu : Mu} {bname : String} {rest : List String}
    {bps : List Mat4} {acc : List (String × Mat4)}
    (h : List.lookup bname mu.objects = none) :
    record_bindPoses mu (bname :: rest) bps acc = .error (.lookupError bname) := by
  simp [record_bindPoses, h]

theorem record_eq_idx {mu : Mu} {bname : String} {rest : List String}
    {pr : Option String} {acc : List (String × Mat4)}
    (h : List.lookup bname mu.objects = some pr) :
    record_bindPoses mu (bname :: rest) [] acc = .error .indexError := by
  simp [record_bindPoses, h]

theorem record_eq_step {mu : Mu} {bname : String} {rest : List String}
    {pr : Option String} {bp : Mat4} {bps' : List Mat4} {acc : List (String × Mat4)}
    (h : List.lookup bname mu.objects = some pr) :
    record_bindPoses mu (bname :: rest) (bp :: bps') acc =
      record_bindPoses mu rest bps' (record_step acc bname (convert bp)) := by
  simp [record_bindPoses, h]

theorem getLast?_cons_my {α : Type} (a : α) (l : List α) :
    (a :: l).getLast? = match l.getLast? with
      | some q => some q
      | none => some a := by
  cases l with
  | nil => simp
  | cons b t =>
    rw [List.getLast?_cons_cons]
    cases hq : (b :: t).getLast? with
    | some q => simp
    | none =>
      rw [List.getLast?_eq_none_iff] at hq
      simp at hq

theorem record_bindPoses_lookup {mu : Mu} :
    ∀ {names : List String} {bps : List Mat4} {acc out : List (String × Mat4)},
    record_bindPoses mu names bps acc = .ok out → ∀ name,
    List.lookup name out =
      match ((names.zip bps).filter (fun q => decide (q.1 = name))).getLast? with
      | some q => some (convert q.2)
      | none => List.lookup name acc := by
  intro names
  induction names with
  | nil =>
    intro bps acc out h name
    obtain rfl : acc = out := by simpa [record_bindPoses] using h
    simp
  | cons bname rest ih =>
    intro bps acc out h name
    cases hlk : List.lookup bname mu.objects with
    | none => rw [record_eq_miss hlk] at h; simp at h
    | some pr =>
      cases bps with
      | nil => rw [record_eq_idx hlk] at h; simp at h
      | cons bp bps' =>
        rw [record_eq_step hlk] at h
        have hih := ih h name
        by_cases hbn : bname = name
        · subst hbn
          rw [List.zip_cons_cons, List.filter_cons_of_pos (by simp),
            getLast?_cons_my]
          generalize ((rest.zip bps').filter (fun q => decide (q.1 = bname))).getLast? = G at hih ⊢
          cases G with
          | some q => simpa using hih
          | none =>
            dsimp only at hih ⊢
            rw [hih, lookup_record_step_self]
        · rw [List.zip_cons_cons, List.filter_cons_of_neg (by simp [hbn])]
          generalize ((rest.zip bps').filter (fun q => decide (q.1 = name))).getLast? = G at hih ⊢
          cases G with
          | some q => simpa using hih
          | none =>
            dsimp only at hih ⊢
            rw [hih, lookup_record_step_other (fun hh => hbn hh.symm)]

theorem record_bindPoses_first_missing {mu : Mu} {b : String} {post : List String}
    (hb : List.lookup b mu.objects = none) :
    ∀ {pre : List String} {bps : List Mat4} {acc : List (String × Mat4)},
    (∀ a ∈ pre, (List.lookup a mu.objects).isSome = true) →
    pre.length ≤ bps.length →
    record_bindPoses mu (pre ++ b :: post) bps acc = .error (.lookupError b) := by
  intro pre
  induction pre with
  | nil =>
    intro bps acc _ _
    exact record_eq_miss hb
  | cons a pre' ih =>
    intro bps acc hpre hlen
    obtain ⟨pr, hpr⟩ := Option.isSome_iff_exists.mp (hpre a (List.mem_cons_self a pre'))
    cases bps with
    | nil => simp at hlen
    | cons bp bps' =>
      rw [List.cons_append, record_eq_step hpr]
      exact ih (fun c hc => hpre c (List.mem_cons_of_mem a hc)) (by simpa using hlen)

theorem record_bindPoses_ok {mu : Mu} :
    ∀ {names : List String} {bps : List Mat4} {acc : List (String × Mat4)},
    (∀ a ∈ names, (List.lookup a mu.objects).isSome = true) →
    names.length ≤ bps.length →
    ∃ out, record_bindPoses mu names bps acc = .ok out := by
  intro names
  induction names with
  | nil => intro bps acc _ _; exact ⟨acc, by simp [record_bindPoses]⟩
  | cons a rest ih =>
    intro bps acc hall hlen
    obtain ⟨pr, hpr⟩ := Option.isSome_iff_exists.mp (hall a (List.mem_cons_self a rest))
    cases bps with
    | nil => simp at hlen
    | cons bp bps' =>
      rw [record_eq_step hpr]
      exact ih (fun c hc => hall c (List.mem_cons_of_mem a hc)) (by simpa using hlen)

/-- Chain scene graph: scene root `A` with child `B`, grandchild `C`
(the three chained transforms of the spec's resolver scenario). -/
def cmuABC : Mu := ⟨[("A", none), ("B", some "A"), ("C", some "B")]⟩

/-- One skin referencing bones `[A, C]` with identity bind poses. -/
def cskinAC : Skin := ⟨["A", "C"], [Mat4.identity, Mat4.identity]⟩

/-- A diagonal matrix distinct from the identity. -/
def diag2 : Mat4 :=
  ⟨⟨2, 0, 0, 0⟩, ⟨0, 2, 0, 0⟩, ⟨0, 0, 2, 0⟩, ⟨0, 0, 0, 2⟩⟩

/-- A one-object scene graph with the single scene root `A`. -/
def c8mu : Mu := ⟨[("A", none)]⟩

/-- A skin listing the same bone name `A` at two indices, with two
different bind-pose matrices. -/
def c9skin : Skin := ⟨["A", "A"], [Mat4.identity, diag2]⟩

/-- C2: every bone set returned by `find_bones` is ancestor-closed: a
member that is not itself a sibling boundary has its source parent in the
set (hence inductively its whole ancestor chain up to the first
sibling-boundary ancestor); and each upward walk stops at its first
sibling-boundary ancestor — in a successful walk only the final element
is a sibling, so no transform above the first boundary enters the set
through the walk. -/
theorem c2_bone_set_ancestor_closed (mu : Mu) (skin : Skin) (siblings : List String)
    (wf lf : Nat) (r : List (String × Mat4) × List String)
    (h : find_bones mu skin siblings wf lf = .ok r) :
    (∀ b ∈ r.2, b ∉ siblings → ∃ p, parentOf mu b = some p ∧ p ∈ r.2) ∧
    (∀ b l, walkUp mu siblings wf b = .ok l →
      ∃ l₁ s, l = l₁ ++ [s] ∧ s ∈ siblings ∧ ∀ x ∈ l₁, x ∉ siblings) := by
  obtain ⟨-, hfb⟩ := find_bones_ok_parts h
  constructor
  · intro b hb hbs
    rcases fb_loop_spec hfb with ⟨heq, hsub⟩ | ⟨S, hs, hsub⟩
    · rw [heq] at hb
      have := hsub b hb
      simp at this
    · have hbS : b ∈ S := hsub b hb
      obtain ⟨l, hw, hlsub⟩ := step_walk_chains hs b hbS
      obtain ⟨p, l', hp, rfl, hpl⟩ := walkUp_parent hw hbs
      exact ⟨p, hp, hlsub p (List.mem_cons_of_mem _ hpl)⟩
  · intro b l hw
    exact walkUp_boundary hw

theorem c2_witness :
    (∀ b ∈ (["A", "C", "B"] : List String), b ∉ (["A"] : List String) →
      ∃ p, parentOf cmuABC b = some p ∧ p ∈ (["A", "C", "B"] : List String)) ∧
    (∀ b l, walkUp cmuABC ["A"] 10 b = .ok l →
      ∃ l₁ s, l = l₁ ++ [s] ∧ s ∈ (["A"] : List String) ∧
        ∀ x ∈ l₁, x ∉ (["A"] : List String)) :=
  c2_bone_set_ancestor_closed cmuABC cskinAC ["A"] 10 10
    ([("A", Mat4.identity), ("C", Mat4.identity)], ["A", "C", "B"])
    (by with_unfolding_all rfl)

/-- C4 counterexample: on the chained scene `A -> B -> C` with one skin
referencing `[A, C]` and an *empty* sibling set, `find_bones` does not
return the bone set `{A, B, C}`: the upward walk can never meet a sibling
boundary, runs past the scene root and fails (Python raises
`AttributeError` on `None.parent`). -/
theorem c4_counterexample :
    find_bones cmuABC cskinAC [] 10 10 = .error .attributeError := by
  with_unfolding_all rfl

/-- C4 amended: the scenario holds once the chain root `A` is a sibling
boundary (the minimal change the counterexample forces).  With sibling set
`{A}`, `find_bones` returns exactly the bone set `{A, B, C}` — `B` pulled
in as a required ancestor — and the generated skeleton has `A` as a root,
`B` parented to `A`, and `C` parented to `B`. -/
theorem c4_chain_scenario :
    find_bones cmuABC cskinAC ["A"] 10 10 =
      .ok ([("A", Mat4.identity), ("C", Mat4.identity)], ["A", "C", "B"]) ∧
    (∀ x : String, x ∈ (["A", "C", "B"] : List String) ↔
      x = "A" ∨ x = "B" ∨ x = "C") ∧
    create_armature_parenting cmuABC ["A", "C", "B"] =
      ([("A", none), ("C", some "B"), ("B", some "A")], ["A"]) := by
  refine ⟨by with_unfolding_all rfl, ?_, by with_unfolding_all rfl⟩
  intro x
  simp only [List.mem_cons, List.not_mem_nil, or_false]
  tauto

/-- C7: in the parent wiring of `create_armature`, a bone whose source
parent is in the bone set gets that parent as its edit-bone parent; a bone
whose source parent is absent (or that has no parent) becomes a hierarchy
root; and consequently no generated bone has a parent outside the bone
set. -/
theorem c7_parent_links (mu : Mu) (bones : List String) :
    (∀ b ∈ bones, ∀ p, parentOf mu b = some p → p ∈ bones →
      (b, some p) ∈ (create_armature_parenting mu bones).1) ∧
    (∀ b ∈ bones, (∀ p, parentOf mu b = some p → p ∉ bones) →
      b ∈ (create_armature_parenting mu bones).2) ∧
    (∀ b p, (b, some p) ∈ (create_armature_parenting mu bones).1 →
      p ∈ bones ∧ parentOf mu b = some p) := by
  refine ⟨?_, ?_, ?_⟩
  · intro b hb p hp hpin
    simp only [create_armature_parenting, List.mem_map]
    exact ⟨b, hb, by simp [bone_parent, hp, hpin]⟩
  · intro b hb hnp
    simp only [create_armature_parenting]
    apply List.mem_filter.mpr
    refine ⟨hb, ?_⟩
    cases hp : parentOf mu b with
    | none => simp [bone_parent, hp]
    | some p =>
      have hnotin := hnp p hp
      simp [bone_parent, hp, hnotin]
  · intro b p hmem
    simp only [create_armature_parenting, List.mem_map] at hmem
    obtain ⟨a, ha, heq⟩ := hmem
    obtain ⟨rfl, hbp⟩ : a = b ∧ bone_parent mu bones a = some p := by
      simpa using heq
    unfold bone_parent at hbp
    cases hp : parentOf mu a with
    | none => rw [hp] at hbp; simp at hbp
    | some q =>
      rw [hp] at hbp
      dsimp only at hbp
      by_cases hq : q ∈ bones
      · rw [if_pos hq] at hbp
        obtain rfl : q = p := by simpa using hbp
        exact ⟨hq, rfl⟩
      · rw [if_neg hq] at hbp; simp at hbp

theorem c7_witness :
    ("C", some "B") ∈ (create_armature_parenting cmuABC ["A", "C", "B"]).1 :=
  (c7_parent_links cmuABC ["A", "C", "B"]).1 "C" (by decide) "B"
    (by with_unfolding_all rfl) (by decide)

/-- C8: when a skin lists a bone name absent from `mu.objects` (here the
first absent name `b`, every earlier listed name being present and
covered by a bind pose), `find_bones` fails with the `LookupError`
(Python `KeyError`) for that name, and the failure aborts and surfaces
through the bone-collection phase of `create_armature`. -/
theorem c8_missing_bone_lookup_error (mu : Mu) (skin : Skin) (siblings : List String)
    (wf lf : Nat) (rest : List Skin) (pre post : List String) (b : String)
    (hsplit : skin.bones = pre ++ b :: post)
    (hpre : ∀ a ∈ pre, (List.lookup a mu.objects).isSome = true)
    (hb : List.lookup b mu.objects = none)
    (hlen : pre.length ≤ skin.bindPoses.length) :
    find_bones mu skin siblings wf lf = .error (.lookupError b) ∧
    collect_bones mu siblings wf lf (skin :: rest) [] = .error (.lookupError b) := by
  have hrec : record_bindPoses mu skin.bones skin.bindPoses [] =
      .error (.lookupError b) := by
    rw [hsplit]
    exact record_bindPoses_first_missing hb hpre hlen
  have hfb : find_bones mu skin siblings wf lf = .error (.lookupError b) := by
    unfold find_bones
    rw [hrec]
  exact ⟨hfb, by simp [collect_bones, hfb]⟩

theorem c8_witness :
    find_bones c8mu ⟨["Z"], [Mat4.identity]⟩ [] 5 5 = .error (.lookupError "Z") ∧
    collect_bones c8mu [] 5 5 [⟨["Z"], [Mat4.identity]⟩] [] =
      .error (.lookupError "Z") :=
  c8_missing_bone_lookup_error c8mu ⟨["Z"], [Mat4.identity]⟩ [] 5 5 [] [] [] "Z"
    rfl (by simp) (by with_unfolding_all rfl) (by simp)

/-- C9: when a skin lists the same bone name at several indices, the bind
pose finally recorded on that bone is the converted matrix paired with the
last occurrence of the name (later assignments overwrite earlier ones),
and the bone appears exactly once in the resolved bone set. -/
theorem c9_duplicate_bone_last_bindpose (mu : Mu) (skin : Skin)
    (siblings : List String) (wf lf : Nat)
    (r : List (String × Mat4) × List String)
    (h : find_bones mu skin siblings wf lf = .ok r) (name : String)
    (hname : name ∈ skin.bones) (q : String × Mat4)
    (hlast : ((skin.bones.zip skin.bindPoses).filter
      (fun q => decide (q.1 = name))).getLast? = some q) :
    List.lookup name r.1 = some (convert q.2) ∧ r.2.count name = 1 := by
  obtain ⟨hrec, hfb⟩ := find_bones_ok_parts h
  constructor
  · have hlook := record_bindPoses_lookup hrec name
    rw [hlast] at hlook
    simpa using hlook
  · have hmem : name ∈ r.2 := fb_loop_sub hfb name (mem_dedupL.mpr hname)
    have hnd : r.2.Nodup := fb_loop_nodup nodup_dedupL hfb
    exact List.count_eq_one_of_mem hnd hmem

theorem c9_witness :
    List.lookup "A" [("A", diag2)] = some (convert diag2) ∧
    (["A"] : List String).count "A" = 1 :=
  c9_duplicate_bone_last_bindpose c8mu c9skin ["A"] 5 5 ([("A", diag2)], ["A"])
    (by with_unfolding_all rfl) "A" (by decide) ("A", diag2)
    (by with_unfolding_all rfl)

/-- The upward walk from `b` meets a sibling boundary: `b` is a boundary,
or `b` has a parent whose walk meets one. -/
inductive WalksToSib (mu : Mu) (siblings : List String) : String → Prop where
  | sib {b : String} : b ∈ siblings → WalksToSib mu siblings b
  | step {b p : String} : b ∉ siblings → parentOf mu b = some p →
      WalksToSib mu siblings p → WalksToSib mu siblings b

/-- The upward walk from `b` reaches a scene root without meeting a
sibling boundary. -/
inductive WalksToRoot (mu : Mu) (siblings : List String) : String → Prop where
  | root {b : String} : b ∉ siblings → parentOf mu b = none → WalksToRoot mu siblings b
  | step {b p : String} : b ∉ siblings → parentOf mu b = some p →
      WalksToRoot mu siblings p → WalksToRoot mu siblings b

theorem walksToSib_walkUp {mu : Mu} {siblings : List String} {b : String}
    (h : WalksToSib mu siblings b) :
    ∃ n l, walkUp mu siblings n b = .ok l := by
  induction h with
  | sib hmem => exact ⟨1, _, walkUp_eq_sib hmem⟩
  | step hnot hp _ ih =>
    obtain ⟨n, l, hl⟩ := ih
    exact ⟨n + 1, _, walkUp_eq_step_ok hnot hp hl⟩

theorem walksToRoot_walkUp {mu : Mu} {siblings : List String} {b : String}
    (h : WalksToRoot mu siblings b) :
    ∃ n, ∀ m, n ≤ m → walkUp mu siblings m b = .error .attributeError := by
  induction h with
  | root hnot hp =>
    refine ⟨1, fun m hm => ?_⟩
    cases m with
    | zero => omega
    | succ k => exact walkUp_eq_noparent hnot hp
  | step hnot hp _ ih =>
    obtain ⟨n, hn⟩ := ih
    refine ⟨n + 1, fun m hm => ?_⟩
    cases m with
    | zero => omega
    | succ k => exact walkUp_eq_step_err hnot hp (hn k (by omega))

theorem uniform_walk_fuel {mu : Mu} {siblings : List String} :
    ∀ (l : List String), (∀ b ∈ l, WalksToSib mu siblings b) →
    ∃ N, ∀ b ∈ l, ∃ lb, walkUp mu siblings N b = .ok lb := by
  intro l
  induction l with
  | nil => exact fun _ => ⟨1, by simp⟩
  | cons a rest ih =>
    intro h
    obtain ⟨N1, hN1⟩ := ih (fun b hb => h b (List.mem_cons_of_mem a hb))
    obtain ⟨n, la, hla⟩ := walksToSib_walkUp (h a (List.mem_cons_self a rest))
    refine ⟨max N1 n, ?_⟩
    intro b hb
    rcases List.mem_cons.mp hb with rfl | hb2
    · exact ⟨la, walkUp_mono hla (le_max_right N1 n)⟩
    · obtain ⟨lb, hlb⟩ := hN1 b hb2
      exact ⟨lb, walkUp_mono hlb (le_max_left N1 n)⟩

theorem uniform_walk_fuel_mixed {mu : Mu} {siblings : List String} :
    ∀ (l : List String),
    (∀ b ∈ l, WalksToSib mu siblings b ∨ WalksToRoot mu siblings b) →
    ∃ N, ∀ m, N ≤ m → ∀ b ∈ l,
      (∃ lb, walkUp mu siblings m b = .ok lb) ∨
      walkUp mu siblings m b = .error .attributeError := by
  intro l
  induction l with
  | nil => exact fun _ => ⟨1, by simp⟩
  | cons a rest ih =>
    intro h
    obtain ⟨N1, hN1⟩ := ih (fun b hb => h b (List.mem_cons_of_mem a hb))
    have ha :
        ∃ n, ∀ m, n ≤ m →
          (∃ la, walkUp mu siblings m a = .ok la) ∨
          walkUp mu siblings m a = .error .attributeError := by
      rcases h a (List.mem_cons_self a rest) with hs | hr
      · obtain ⟨n, la, hla⟩ := walksToSib_walkUp hs
        exact ⟨n, fun m hm => Or.inl ⟨la, walkUp_mono hla hm⟩⟩
      · obtain ⟨n, hn⟩ := walksToRoot_walkUp hr
        exact ⟨n, fun m hm => Or.inr (hn m hm)⟩
    obtain ⟨n, hn⟩ := ha
    refine ⟨max N1 n, fun m hm b hb => ?_⟩
    rcases List.mem_cons.mp hb with rfl | hb2
    · exact hn m (le_trans (le_max_right N1 n) hm)
    · exact hN1 m (le_trans (le_max_left N1 n) hm) b hb2

/-- C10: under the preconditions that every bone name a skin lists is
present in the scene graph, carries a bind pose, and has an upward walk
that meets a sibling boundary (the scene graph being a finite tree is
subsumed by the well-foundedness of `WalksToSib` derivations),
`find_bones` terminates: there is enough fuel for every inner parent walk
and for the outer fix-point loop to return successfully. -/
theorem c10_find_bones_terminates (mu : Mu) (skin : Skin) (siblings : List String)
    (hlook : ∀ a ∈ skin.bones, (List.lookup a mu.objects).isSome = true)
    (hlen : skin.bones.length ≤ skin.bindPoses.length)
    (hwalk : ∀ b ∈ skin.bones, WalksToSib mu siblings b) :
    ∃ wf lf r, find_bones mu skin siblings wf lf = .ok r := by
  obtain ⟨jrnl, hjrnl⟩ := record_bindPoses_ok hlook hlen
  have hB0 : ∀ b ∈ dedupL skin.bones, WalksToSib mu siblings b :=
    fun b hb => hwalk b (mem_dedupL.mp hb)
  obtain ⟨N, hN⟩ := uniform_walk_fuel (dedupL skin.bones) hB0
  by_cases hempty : ∀ x ∈ dedupL skin.bones, x ∈ ([] : List String)
  · refine ⟨N, 1, (jrnl, dedupL skin.bones), ?_⟩
    unfold find_bones
    rw [hjrnl, fb_loop_eq_done hempty]
  · obtain ⟨S1, hS1⟩ := step_walk_ok hN []
    have hS1w : ∀ x ∈ S1, ∃ lx, walkUp mu siblings N x = .ok lx := by
      intro x hx
      rcases step_walk_origin hS1 x hx with hin | ⟨b, hb, l, hwb, hxl⟩
      · simp at hin
      · obtain ⟨lx, hlx, -⟩ := walkUp_suffix hwb x hxl
        exact ⟨lx, hlx⟩
    by_cases h1 : ∀ x ∈ S1, x ∈ dedupL skin.bones
    · refine ⟨N, 2, (jrnl, S1), ?_⟩
      unfold find_bones
      rw [hjrnl, fb_loop_eq_step hempty hS1, fb_loop_eq_done h1]
    · obtain ⟨S2, hS2⟩ := step_walk_ok hS1w []
      have hS2sub : ∀ x ∈ S2, x ∈ S1 := by
        intro x hx
        rcases step_walk_origin hS2 x hx with hin | ⟨y, hy, ly, hwy, hxly⟩
        · simp at hin
        · rcases step_walk_origin hS1 y hy with hin2 | ⟨b, hb, lb, hwb, hylb⟩
          · simp at hin2
          · obtain ⟨ly', hly', hsubly⟩ := walkUp_suffix hwb y hylb
            have hlyeq : ly = ly' := by
              rw [hwy] at hly'
              simpa using hly'
            subst hlyeq
            obtain ⟨lb', hwb', hsublb⟩ := step_walk_chains hS1 b hb
            have hlbeq : lb = lb' := by
              rw [hwb] at hwb'
              simpa using hwb'
            subst hlbeq
            exact hsublb x (hsubly x hxly)
      refine ⟨N, 3, (jrnl, S2), ?_⟩
      unfold find_bones
      rw [hjrnl, fb_loop_eq_step hempty hS1, fb_loop_eq_step h1 hS2,
        fb_loop_eq_done hS2sub]

theorem c10_witness :
    ∃ wf lf r, find_bones cmuABC cskinAC ["A"] wf lf = .ok r :=
  c10_find_bones_terminates cmuABC cskinAC ["A"]
    (by
      intro a ha
      fin_cases ha
      all_goals with_unfolding_all rfl)
    (by simp [cskinAC])
    (by
      intro b hb
      have hAB : WalksToSib cmuABC ["A"] "A" := .sib (by decide)
      have hBB : WalksToSib cmuABC ["A"] "B" :=
        .step (by decide) (by with_unfolding_all rfl) hAB
      have hCB : WalksToSib cmuABC ["A"] "C" :=
        .step (by decide) (by with_unfolding_all rfl) hBB
      fin_cases hb
      · exact hAB
      · exact hCB)

/-- Scene graph whose only objects are a scene root `R` and its child `A`:
the walk from `A` reaches `R` and then runs past the scene root. -/
def c3mu : Mu := ⟨[("R", none), ("A", some "R")]⟩

/-- One skin referencing bone `A` with an identity bind pose. -/
def c3skin : Skin := ⟨["A"], [Mat4.identity]⟩

/-- C3 counterexample: when a listed bone's ancestor chain reaches the
scene root without meeting any sibling boundary, `find_bones` does *not*
fail with a `StructuralError` carrying a descriptive message: there is no
such error anywhere in the code.  It fails with the untyped
`AttributeError` from evaluating `None.parent` (here on the scene `R -> A`
with skin bones `[A]` and sibling set `{X}` disjoint from the chain). -/
theorem c3_counterexample :
    find_bones c3mu c3skin ["X"] 10 10 = .error .attributeError ∧
    isStructuralError (find_bones c3mu c3skin ["X"] 10 10) = false := by
  exact ⟨by with_unfolding_all rfl, by with_unfolding_all rfl⟩

/-- C3 amended: if every listed bone's walk either meets a sibling
boundary or runs off a scene root, and at least one bone's walk runs off a
scene root, then `find_bones` fails — with the (undescriptive)
`AttributeError`, not a `StructuralError` — for every sufficiently large
walk fuel and any loop fuel, i.e. the code neither loops forever nor
silently misplaces the bone, but the failure carries no descriptive
message. -/
theorem c3_root_walk_attribute_error (mu : Mu) (skin : Skin) (siblings : List String)
    (hlook : ∀ a ∈ skin.bones, (List.lookup a mu.objects).isSome = true)
    (hlen : skin.bones.length ≤ skin.bindPoses.length)
    (hall : ∀ b ∈ skin.bones, WalksToSib mu siblings b ∨ WalksToRoot mu siblings b)
    (b0 : String) (hb0 : b0 ∈ skin.bones) (hroot : WalksToRoot mu siblings b0) :
    ∃ wf0, ∀ wf, wf0 ≤ wf → ∀ lf, 1 ≤ lf →
      find_bones mu skin siblings wf lf = .error .attributeError := by
  obtain ⟨jrnl, hjrnl⟩ := record_bindPoses_ok hlook hlen
  obtain ⟨N, hN⟩ := uniform_walk_fuel_mixed (dedupL skin.bones)
    (fun b hb => hall b (mem_dedupL.mp hb))
  obtain ⟨n0, hn0⟩ := walksToRoot_walkUp hroot
  refine ⟨max N n0, fun wf hwf lf hlf => ?_⟩
  have hb0d : b0 ∈ dedupL skin.bones := mem_dedupL.mpr hb0
  have hdec : ∀ b ∈ dedupL skin.bones,
      walkUp mu siblings wf b = .error .attributeError ∨
      ∃ l, walkUp mu siblings wf b = .ok l := by
    intro b hb
    rcases hN wf (le_trans (le_max_left N n0) hwf) b hb with hok | herr
    · exact Or.inr hok
    · exact Or.inl herr
  have hberr : walkUp mu siblings wf b0 = .error .attributeError :=
    hn0 wf (le_trans (le_max_right N n0) hwf)
  have hstep : step_walk mu siblings wf (dedupL skin.bones) [] =
      .error .attributeError :=
    step_walk_error hdec ⟨b0, hb0d, hberr⟩ []
  have hne : ¬ ∀ x ∈ dedupL skin.bones, x ∈ ([] : List String) := by
    intro hc
    simpa using hc b0 hb0d
  cases lf with
  | zero => omega
  | succ k =>
    unfold find_bones
    rw [hjrnl, fb_loop_eq_err hne hstep]

theorem c3_witness :
    ∃ wf0, ∀ wf, wf0 ≤ wf → ∀ lf, 1 ≤ lf →
      find_bones c3mu c3skin ["X"] wf lf = .error .attributeError :=
  c3_root_walk_attribute_error c3mu c3skin ["X"]
    (by
      intro a ha
      fin_cases ha
      all_goals with_unfolding_all rfl)
    (by simp [c3skin])
    (by
      intro b hb
      have : b = "A" := by simpa [c3skin] using hb
      subst this
      exact Or.inr (.step (by decide) (by with_unfolding_all rfl)
        (.root (by decide) (by with_unfolding_all rfl))))
    "A" (by simp [c3skin])
    (.step (by decide) (by with_unfolding_all rfl)
      (.root (by decide) (by with_unfolding_all rfl)))

/-- C5: the coordinate conversion is an involution: the basis-change
matrix composed with itself is the identity, converting any 4x4 matrix
twice returns it exactly, converting any (position) vector twice returns
it exactly, and the conversion applied to a bind matrix (see
`record_bindPoses`, storing `convert bp`) pre- and post-multiplies with
the same basis-change matrix `Matrix_YZ`. -/
theorem c5_conversion_involution :
    Matrix_YZ.mul Matrix_YZ = Mat4.identity ∧
    (∀ m : Mat4, convert (convert m) = m) ∧
    (∀ v : Vec4, Matrix_YZ.mulVec (Matrix_YZ.mulVec v) = v) ∧
    (∀ m : Mat4, convert m = (Matrix_YZ.mul m).mul Matrix_YZ) :=
  ⟨Matrix_YZ_self_mul, convert_involution, Matrix_YZ_vec_involution, fun _ => rfl⟩

/-- The pose-relevant state of the two generated skeletons after edit mode
has closed: per-bone rest (edit-bone) geometry and per-bone pose matrices
(`pose.bones[name].matrix`), each keyed by bone name. -/
structure ArmaturePoseState where
  deformRest : String → Option Mat4
  bindRest : String → Option Mat4
  deformPose : String → Option Mat4
  bindPose : String → Option Mat4

/-- Lines 189-193 of `create_armature`: for every bone `b` carrying a
`bindPose` attribute (`hasBind`), look up `pb`, the bind-pose skeleton's
pose bone, and `rb`, the deform skeleton's same-named pose bone, and
assign `pb.matrix = rb.matrix`. -/
def create_armature_copy_pose (hasBind : String → Bool) (bones : List String)
    (st : ArmaturePoseState) : ArmaturePoseState :=
  bones.foldl
    (fun s b =>
      if hasBind b then
        { s with bindPose := fun k => if k = b then s.deformPose b else s.bindPose k }
      else s)
    st

theorem copy_pose_preserves (hasBind : String → Bool) :
    ∀ (bones : List String) (st : ArmaturePoseState),
    (create_armature_copy_pose hasBind bones st).deformRest = st.deformRest ∧
    (create_armature_copy_pose hasBind bones st).bindRest = st.bindRest ∧
    (create_armature_copy_pose hasBind bones st).deformPose = st.deformPose := by
  intro bones
  induction bones with
  | nil => intro st; exact ⟨rfl, rfl, rfl⟩
  | cons a rest ih =>
    intro st
    by_cases h : hasBind a
    · have := ih { st with
        bindPose := fun k => if k = a then st.deformPose a else st.bindPose k }
      simpa [create_armature_copy_pose, List.foldl_cons, h] using this
    · have := ih st
      simpa [create_armature_copy_pose, List.foldl_cons, h] using this

theorem copy_pose_untouched (hasBind : String → Bool) :
    ∀ (bones : List String) (st : ArmaturePoseState) (k : String),
    (k ∈ bones → hasBind k = false) →
    (create_armature_copy_pose hasBind bones st).bindPose k = st.bindPose k := by
  intro bones
  induction bones with
  | nil => intro st k _; rfl
  | cons a rest ih =>
    intro st k hk
    by_cases h : hasBind a
    · have hka : k ≠ a := by
        intro he
        subst he
        rw [hk (List.mem_cons_self k rest)] at h
        simp at h
      have := ih { st with
          bindPose := fun k => if k = a then st.deformPose a else st.bindPose k }
        k (fun hm => hk (List.mem_cons_of_mem a hm))
      simp only [create_armature_copy_pose, List.foldl_cons, if_pos h] at this ⊢
      rw [this, if_neg hka]
    · have := ih st k (fun hm => hk (List.mem_cons_of_mem a hm))
      simpa [create_armature_copy_pose, List.foldl_cons, h] using this

theorem copy_pose_bindPose_mem (hasBind : String → Bool) :
    ∀ (bones : List String) (st : ArmaturePoseState) (b : String),
    b ∈ bones → hasBind b = true →
    (create_armature_copy_pose hasBind bones st).bindPose b = st.deformPose b := by
  intro bones
  induction bones with
  | nil => intro st b hb _; simp at hb
  | cons a rest ih =>
    intro st b hb hbind
    by_cases hbr : b ∈ rest
    · by_cases h : hasBind a
      · have := ih { st with
            bindPose := fun k => if k = a then st.deformPose a else st.bindPose k }
          b hbr hbind
        simpa [create_armature_copy_pose, List.foldl_cons, h] using this
      · have := ih st b hbr hbind
        simpa [create_armature_copy_pose, List.foldl_cons, h] using this
    · have hba : b = a := by
        rcases List.mem_cons.mp hb with h1 | h2
        · exact h1
        · exact absurd h2 hbr
      subst hba
      have hunt := copy_pose_untouched hasBind rest
        { st with bindPose := fun k => if k = b then st.deformPose b else st.bindPose k }
        b (fun hm => absurd hm hbr)
      simp only [create_armature_copy_pose, List.foldl_cons, if_pos hbind] at hunt ⊢
      rw [hunt]
      simp

/-- C1 amended: after both skeletons are built and edit mode has been
exited, for every bone carrying a bind matrix the copy loop assigns in
the direction `pb.matrix = rb.matrix`: it copies the pose-space matrix
*from the deform skeleton's* pose bone *onto the same-named pose bone of
the bind-pose skeleton* (the reverse of the claimed direction), so the
bind-pose skeleton's pose matrix for that bone ends up equal to the
deform skeleton's pose matrix; the deform skeleton's pose and both
skeletons' rest geometry are untouched. -/
theorem c1_copy_pose_direction (hasBind : String → Bool) (bones : List String)
    (st : ArmaturePoseState) :
    (create_armature_copy_pose hasBind bones st).deformRest = st.deformRest ∧
    (create_armature_copy_pose hasBind bones st).bindRest = st.bindRest ∧
    (create_armature_copy_pose hasBind bones st).deformPose = st.deformPose ∧
    (∀ b ∈ bones, hasBind b = true →
      (create_armature_copy_pose hasBind bones st).bindPose b = st.deformPose b) ∧
    (∀ k, (k ∈ bones → hasBind k = false) →
      (create_armature_copy_pose hasBind bones st).bindPose k = st.bindPose k) := by
  obtain ⟨h1, h2, h3⟩ := copy_pose_preserves hasBind bones st
  exact ⟨h1, h2, h3,
    fun b hb hbind => copy_pose_bindPose_mem hasBind bones st b hb hbind,
    fun k hk => copy_pose_untouched hasBind bones st k hk⟩

/-- `hasattr(b, "bindPose")` for the one-bone counterexample scene. -/
def c1hasBind : String → Bool := fun k => k == "A"

/-- Pose state before the copy loop: the deform skeleton's pose bone `A`
holds the identity matrix, the bind-pose skeleton's pose bone `A` holds a
different matrix. -/
def c1st : ArmaturePoseState :=
  ⟨fun _ => none, fun _ => none,
   fun k => if k = "A" then some Mat4.identity else none,
   fun k => if k = "A" then some diag2 else none⟩

/-- C1 counterexample: the copy at lines 189-193 runs in the direction
`bindPose := deform` (`pb` is the bind-pose skeleton's pose bone, `rb`
the deform skeleton's, and the code assigns `pb.matrix = rb.matrix`),
not `deform := bindPose` as claimed: after the copy the deform skeleton's
pose matrix for `A` is unchanged and differs from the bind-pose
skeleton's prior pose matrix; the bind-pose skeleton's entry is what got
overwritten. -/
theorem c1_counterexample :
    (create_armature_copy_pose c1hasBind ["A"] c1st).deformPose "A" =
      some Mat4.identity ∧
    c1st.bindPose "A" = some diag2 ∧
    (create_armature_copy_pose c1hasBind ["A"] c1st).deformPose "A" ≠
      c1st.bindPose "A" ∧
    (create_armature_copy_pose c1hasBind ["A"] c1st).bindPose "A" =
      some Mat4.identity := by
  refine ⟨by with_unfolding_all rfl, by with_unfolding_all rfl,
    by with_unfolding_all decide, by with_unfolding_all rfl⟩

theorem c1_witness :
    (create_armature_copy_pose c1hasBind ["A"] c1st).bindPose "A" =
      c1st.deformPose "A" :=
  (c1_copy_pose_direction c1hasBind ["A"] c1st).2.2.2.1 "A" (by decide) (by decide)

/-- One record per bone visited by `process_armature`: the bone's name,
its local position/rotation (`obj.position`, `obj.rotation`), the
traversal inputs (`position`, `rotation` — the parent's world head and
accumulated rotation), and the geometry written to the edit bone: `head`,
`tail`, the accumulated world rotation `lrot`, and the vector passed to
`align_roll`. -/
structure BoneGeom where
  name : String
  localPos : Vec3
  localRot : Quat
  position : Vec3
  rotation : Quat
  head : Vec3
  tail : Vec3
  lrot : Quat
  rollTarget : Vec3
deriving DecidableEq

mutual
inductive BTree where
  | node : String → Vec3 → Quat → BForest → BTree
inductive BForest where
  | nil : BForest
  | cons : BTree → BForest → BForest
end

mutual
/-- `process_bone` (armature.py lines 79-92): `head = rotation @ position
+ position_arg`, `lrot = rotation @ rot`, `tail = head + lrot @ (0,
BONE_LENGTH, 0)`, `align_roll(lrot @ (0, 0, 1))`, then recurse into the
children belonging to this armature, passing `(head, lrot)`.  The
children field of a `BTree` node holds exactly the children for which
`child.armature == armobj` (line 87). -/
def process_bone : BTree → Vec3 → Quat → List BoneGeom
  | .node n bpos brot children, position, rotation =>
    ⟨n, bpos, brot, position, rotation,
      rotation.rotate bpos + position,
      (rotation.rotate bpos + position) +
        (Quat.mul rotation brot).rotate ⟨0, BONE_LENGTH, 0⟩,
      Quat.mul rotation brot,
      (Quat.mul rotation brot).rotate ⟨0, 0, 1⟩⟩ ::
    process_forest children (rotation.rotate bpos + position)
      (Quat.mul rotation brot)
/-- The loop over a list of bones sharing the same parent state. -/
def process_forest : BForest → Vec3 → Quat → List BoneGeom
  | .nil, _, _ => []
  | .cons t ts, position, rotation =>
    process_bone t position rotation ++ process_forest ts position rotation
end

/-- `process_armature` (lines 94-98): process every root bone with world
position `(0, 0, 0)` and world rotation the identity quaternion — the
armature object itself has no bone. -/
def process_armature (rootBones : BForest) : List BoneGeom :=
  process_forest rootBones ⟨0, 0, 0⟩ Quat.one

mutual
/-- All local rotations in the tree are unit quaternions. -/
def unitTree : BTree → Bool
  | .node _ _ r cs => decide (normSqQ r = 1) && unitForest cs
def unitForest : BForest → Bool
  | .nil => true
  | .cons t ts => unitTree t && unitForest ts
end

mutual
def sizeT : BTree → Nat
  | .node _ _ _ cs => sizeF cs + 1
def sizeF : BForest → Nat
  | .nil => 0
  | .cons t ts => sizeT t + sizeF ts + 1
end

/-- The per-bone geometry contract of the pose propagator: head from the
parent state, accumulated rotation, tail from head, tail-head a
`BONE_LENGTH` multiple of the rotated canonical axis with squared length
exactly `BONE_LENGTH ^ 2`, and the roll target the rotated up-axis. -/
def GeomOK (g : BoneGeom) : Prop :=
  g.head = g.rotation.rotate g.localPos + g.position ∧
  g.lrot = Quat.mul g.rotation g.localRot ∧
  g.tail = g.head + g.lrot.rotate ⟨0, BONE_LENGTH, 0⟩ ∧
  g.tail - g.head = smul3 BONE_LENGTH (g.lrot.rotate ⟨0, 1, 0⟩) ∧
  normSq3 (g.tail - g.head) = BONE_LENGTH ^ 2 ∧
  g.rollTarget = g.lrot.rotate ⟨0, 0, 1⟩

theorem bl_vec_smul : (⟨0, BONE_LENGTH, 0⟩ : Vec3) = smul3 BONE_LENGTH ⟨0, 1, 0⟩ := by
  with_unfolding_all rfl

theorem normSq3_bl : normSq3 ⟨0, BONE_LENGTH, 0⟩ = BONE_LENGTH ^ 2 := by
  with_unfolding_all rfl

theorem process_forest_geom_aux :
    ∀ (N : Nat) (ts : BForest) (pos : Vec3) (rot : Quat), sizeF ts ≤ N →
    normSqQ rot = 1 → unitForest ts = true →
    ∀ g ∈ process_forest ts pos rot, GeomOK g := by
  intro N
  induction N with
  | zero =>
    intro ts pos rot hsz _ _ g hg
    cases ts with
    | nil => simp [process_forest] at hg
    | cons t ts' =>
      rw [show sizeF (.cons t ts') = sizeT t + sizeF ts' + 1 from rfl] at hsz
      omega
  | succ M ih =>
    intro ts pos rot hsz hrot hunit g hg
    cases ts with
    | nil => simp [process_forest] at hg
    | cons t ts' =>
      rw [show sizeF (.cons t ts') = sizeT t + sizeF ts' + 1 from rfl] at hsz
      rw [show unitForest (.cons t ts') = (unitTree t && unitForest ts') from rfl]
        at hunit
      rw [Bool.and_eq_true] at hunit
      obtain ⟨hut, huf⟩ := hunit
      rw [show process_forest (.cons t ts') pos rot =
        process_bone t pos rot ++ process_forest ts' pos rot from rfl] at hg
      rcases List.mem_append.mp hg with hgt | hgf
      · cases t with
        | node n bpos brot cs =>
          rw [show unitTree (.node n bpos brot cs) =
            (decide (normSqQ brot = 1) && unitForest cs) from rfl] at hut
          rw [Bool.and_eq_true] at hut
          obtain ⟨hbrot', hcs⟩ := hut
          have hbrot : normSqQ brot = 1 := of_decide_eq_true hbrot'
          have hlrot : normSqQ (Quat.mul rot brot) = 1 := by
            rw [normSqQ_mul, hrot, hbrot]
            norm_num
          rw [show process_bone (.node n bpos brot cs) pos rot =
            (⟨n, bpos, brot, pos, rot,
              rot.rotate bpos + pos,
              (rot.rotate bpos + pos) +
                (Quat.mul rot brot).rotate ⟨0, BONE_LENGTH, 0⟩,
              Quat.mul rot brot,
              (Quat.mul rot brot).rotate ⟨0, 0, 1⟩⟩ ::
            process_forest cs (rot.rotate bpos + pos) (Quat.mul rot brot))
            from rfl] at hgt
          rcases List.mem_cons.mp hgt with rfl | hgc
          · refine ⟨rfl, rfl, rfl, ?_, ?_, rfl⟩
            · dsimp only
              rw [vec3_add_sub_cancel, bl_vec_smul, rotate_smul]
            · dsimp only
              rw [vec3_add_sub_cancel, normSq3_rotate, hlrot, normSq3_bl]
              norm_num
          · have hszcs : sizeF cs ≤ M := by
              rw [show sizeT (.node n bpos brot cs) = sizeF cs + 1 from rfl] at hsz
              omega
            exact ih cs _ _ hszcs hlrot hcs g hgc
      · exact ih ts' pos rot (by omega) hrot huf g hgf

/-- Two chained bones: `A` at local position `(1, 0, 0)` with identity
rotation, child `B` at local position `(0, 1, 0)` with identity
rotation. -/
def c6_scenario : BForest :=
  .cons (.node "A" ⟨1, 0, 0⟩ Quat.one
    (.cons (.node "B" ⟨0, 1, 0⟩ Quat.one .nil) .nil)) .nil

/-- C6: for every bone visited by the pose propagator (depth-first,
parent before child, roots starting from zero position and identity
rotation), when all local rotations are unit quaternions: the head is
the parent world rotation applied to the local position plus the parent
world position, the accumulated rotation composes parent and local
rotations, the tail is head plus the rotated `(0, BONE_LENGTH, 0)`, so
`tail - head` is the `BONE_LENGTH` multiple of the rotated canonical
axis and has squared length exactly `BONE_LENGTH ^ 2`, and the roll is
aligned to the rotated `(0, 0, 1)`; in particular, in the two-bone
scenario, `B`'s propagated world head is `(1, 1, 0)`. -/
theorem c6_pose_propagator (roots : BForest) (h : unitForest roots = true) :
    (∀ g ∈ process_armature roots, GeomOK g) ∧
    (process_armature c6_scenario).map (fun g => (g.name, g.head)) =
      [("A", ⟨1, 0, 0⟩), ("B", ⟨1, 1, 0⟩)] := by
  constructor
  · intro g hg
    exact process_forest_geom_aux (sizeF roots) roots ⟨0, 0, 0⟩ Quat.one
      (le_refl _) (by norm_num [normSqQ, Quat.one]) h g hg
  · with_unfolding_all rfl

theorem c6_witness :
    unitForest c6_scenario = true ∧
    (∀ g ∈ process_armature c6_scenario, GeomOK g) :=
  ⟨by with_unfolding_all rfl,
   (c6_pose_propagator c6_scenario (by with_unfolding_all rfl)).1⟩
